import Mathlib

/-!
Shallow embedding of the `nominal` batch file-renaming library.

Paths are modelled by `Nominal.FsPath`: an `absolute` flag plus the list of
normal components, mirroring `std::path::Path` in canonical form (Rust `Path`
equality, `starts_with`, `strip_prefix`, `parent` and `ancestors` all work
component-wise, which this model reproduces).  The filesystem the operations
run against is modelled by `Nominal.ConcreteFs`: a finite map from paths to
nodes (file, directory or symbolic link) together with error oracles that let
the environment inject the I/O failures the OS calls may return.  Stateful
code becomes explicit state passing: a Rust function mutating the filesystem
and returning `Result<(), E>` becomes a Lean function `ConcreteFs → ConcreteFs × Option E`.
-/

namespace Nominal

/-- A filesystem path in canonical form: whether it is absolute, plus its
normal components in order.  Models `std::path::Path`. -/
structure FsPath where
  absolute : Bool
  components : List String
deriving DecidableEq, Repr

/-- Shorthand for an absolute path. -/
def pAbs (l : List String) : FsPath := ⟨true, l⟩

/-- Shorthand for a relative path. -/
def pRel (l : List String) : FsPath := ⟨false, l⟩

instance {ε α : Type _} [DecidableEq ε] [DecidableEq α] : DecidableEq (Except ε α) :=
  fun a b =>
    match a, b with
    | .ok x, .ok y =>
      if h : x = y then .isTrue (h ▸ rfl)
      else .isFalse (fun hc => h (Except.ok.inj hc))
    | .ok _, .error _ => .isFalse (fun hc => Except.noConfusion hc)
    | .error _, .ok _ => .isFalse (fun hc => Except.noConfusion hc)
    | .error e, .error f =>
      if h : e = f then .isTrue (h ▸ rfl)
      else .isFalse (fun hc => h (Except.error.inj hc))

namespace FsPath

/-- The component sequence as Rust's `Path::components` yields it: the root
directory (encoded `none`) for an absolute path, then the normal components
(encoded `some`). -/
def fullComponents (p : FsPath) : List (Option String) :=
  (if p.absolute then [none] else []) ++ p.components.map some

/-- Models `path.as_os_str().is_empty()`: only the empty relative path has an
empty textual form (the root renders as a separator, hence nonempty). -/
def isEmptyOsStr (p : FsPath) : Bool :=
  !p.absolute && p.components.isEmpty

/-- Strip a leading run of components, as Rust's `iter_after` helper does for
`Path::strip_prefix` and `Path::starts_with`: `none` on a component mismatch,
otherwise the remaining components. -/
def stripFull : List (Option String) → List (Option String) → Option (List (Option String))
  | p, [] => some p
  | [], _ :: _ => none
  | a :: as, b :: bs => if a = b then stripFull as bs else none

/-- Rebuild a path from a component sequence (a suffix of some
`fullComponents`, so a root marker can only appear in head position). -/
def ofFull (l : List (Option String)) : FsPath :=
  match l with
  | none :: rest => ⟨true, rest.filterMap id⟩
  | _ => ⟨false, l.filterMap id⟩

/-- Models `Path::starts_with`: `base` matches a whole-component prefix. -/
def startsWith (p base : FsPath) : Bool :=
  (stripFull p.fullComponents base.fullComponents).isSome

/-- Models `Path::strip_prefix`, returning the remainder on success. -/
def strip_prefix (p base : FsPath) : Option FsPath :=
  (stripFull p.fullComponents base.fullComponents).map ofFull

/-- Models `Path::parent`: drops the last normal component; the root and the
empty path have no parent. -/
def parent (p : FsPath) : Option FsPath :=
  match p.components with
  | [] => none
  | _ :: _ => some ⟨p.absolute, p.components.dropLast⟩

/-- Component lists of a path and all its ancestors, longest first, down to
the empty list.  `Path::ancestors` iterates `parent`, i.e. drops the last
component repeatedly, so the result is the chain of prefixes of the
component list in order of decreasing length, which this computes by
structural recursion. -/
def ancestorsComps : List String → List (List String)
  | [] => [[]]
  | a :: as => ((ancestorsComps as).map (fun x => a :: x)) ++ [[]]

/-- Models `Path::ancestors`: the path, its parent, its grandparent, …,
ending at the root (absolute) or the empty path (relative). -/
def ancestors (p : FsPath) : List FsPath :=
  (ancestorsComps p.components).map (fun cs => ⟨p.absolute, cs⟩)

/-- Models `path.display().to_string()`: components joined by separators,
with a leading separator when absolute. -/
def render (p : FsPath) : String :=
  (if p.absolute then "/" else "") ++ String.intercalate "/" p.components

end FsPath

/-- Models `fsutil::common_ancestor`: the first (deepest) ancestor of
`path_1` that is textually nonempty and that `path_2` starts with. -/
def common_ancestor (path_1 path_2 : FsPath) : Option FsPath :=
  path_1.ancestors.find? (fun ancestor =>
    !ancestor.isEmptyOsStr && path_2.startsWith ancestor)

/-- Models `operation::Rename`: a (source, target) path pair. -/
structure Rename where
  source : FsPath
  target : FsPath
deriving DecidableEq, Repr

/-- Models `Rename::new`. -/
def Rename.new (source target : FsPath) : Rename := ⟨source, target⟩

/-- Models the `fmt::Display` implementation for `Rename`: the grouped form
when a common ancestor exists, the plain arrow form otherwise.  The literal
braces of the Rust format string appear as their escapes.  The result is
`none` exactly when one of the two `strip_prefix(...).unwrap()` calls in the
source would panic (proved impossible below). -/
def Rename.display (r : Rename) : Option String :=
  match common_ancestor r.source r.target with
  | some common =>
    match FsPath.strip_prefix r.source common, FsPath.strip_prefix r.target common with
    | some s, some t =>
      some (common.render ++ "/\x7b" ++ s.render ++ " => " ++ t.render ++ "\x7d")
    | _, _ => none
  | none => some (r.source.render ++ " => " ++ r.target.render)

/-- The laws a comparator must satisfy to be a total preorder, as `Vec::sort_by`
requires of its comparison closure (and as both the ICU collator and
`Path::cmp` provide). -/
structure LawfulCmp {α : Type _} (cmp : α → α → Ordering) : Prop where
  symm : ∀ a b, cmp a b = (cmp b a).swap
  le_trans : ∀ {a b c}, cmp a b ≠ .gt → cmp b c ≠ .gt → cmp a c ≠ .gt

/-- Insert an element into a sorted list, after every element it compares
greater than — so before any element comparing equal, which is what makes
the sort below stable. -/
def insertBy {α : Type _} (cmp : α → α → Ordering) (a : α) : List α → List α
  | [] => [a]
  | b :: bs => if cmp a b = .gt then b :: insertBy cmp a bs else a :: b :: bs

/-- Insertion sort.  Models `Vec::sort_by`, which is a stable sort: for a
lawful comparator a stable sort's output is unique, so any stable sorting
algorithm is an exact model of the library's merge sort. -/
def sortBy {α : Type _} (cmp : α → α → Ordering) : List α → List α
  | [] => []
  | a :: as => insertBy cmp a (sortBy cmp as)

/-- Three-way comparison induced by a linear order. -/
def cmpOfLinear {α : Type _} [LinearOrder α] (a b : α) : Ordering :=
  if a < b then .lt else if a = b then .eq else .gt

/-- Lexicographic comparison of component lists, as Rust's `Iterator::cmp`
performs it. -/
def cmpList {α : Type _} (c : α → α → Ordering) : List α → List α → Ordering
  | [], [] => .eq
  | [], _ :: _ => .lt
  | _ :: _, [] => .gt
  | a :: as, b :: bs =>
    match c a b with
    | .eq => cmpList c as bs
    | o => o

/-- Comparison of component text, modelling `OsStr::cmp`'s byte order:
lexicographic on the scalar values, which for UTF-8 agrees with byte
order. -/
def cmpString (s t : String) : Ordering :=
  cmpList cmpOfLinear (s.data.map Char.toNat) (t.data.map Char.toNat)

/-- Comparison of single path components, as Rust's derived `Ord` on
`Component` orders them: the root directory before any normal component,
normal components by their text. -/
def cmpComponent (a b : Option String) : Ordering :=
  match a, b with
  | none, none => .eq
  | none, some _ => .lt
  | some _, none => .gt
  | some s, some t => cmpString s t

/-- Models `Path::cmp` (the comparison `plan` uses when the `unicode`
feature is disabled): lexicographic on the component sequence. -/
def pathCmp (p q : FsPath) : Ordering :=
  cmpList cmpComponent p.fullComponents q.fullComponents

/-- Models `icu_collator::Error`: opaque, only its identity matters. -/
structure IcuError where
  tag : Nat
deriving DecidableEq, Repr

/-- Models `error::PlanError`.  With the `unicode` feature it has the single
variant below; without the feature it is an empty enum (and `plan` is then
infallible, see `Renamer.plan`). -/
inductive PlanError where
  | icuCollator (e : IcuError)
deriving DecidableEq, Repr

/-- Models `plan::Plan`: the ordered sequence of retained rename operations. -/
structure Plan where
  renames : List Rename
deriving DecidableEq, Repr

/-- Models `renamer::Renamer`: the accumulated pending operations, in
insertion order. -/
structure Renamer where
  renames : List Rename
deriving DecidableEq, Repr

/-- Models `Renamer::new`. -/
def Renamer.new : Renamer := ⟨[]⟩

/-- Models `Renamer::add`. -/
def Renamer.add (r : Renamer) (source target : FsPath) : Renamer :=
  ⟨r.renames ++ [Rename.new source target]⟩

/-- Models `Renamer::plan`.  `col` is the outcome of the comparison-function
setup: with the `unicode` feature it is the result of `Collator::try_new`
(an abstract total preorder on paths when initialization succeeds, an
`IcuError` otherwise); without the feature it is always `.ok`, holding the
`Path::cmp` byte/component order (`pathCmp` below).  The body mirrors the
source: retain the pairs with `source != target`, then stable-sort by
target under the selected order. -/
def Renamer.plan (col : Except IcuError (FsPath → FsPath → Ordering)) (r : Renamer) :
    Except PlanError Plan :=
  let renames := r.renames.filter (fun rn => decide (rn.source ≠ rn.target))
  match col with
  | .error e => .error (.icuCollator e)
  | .ok collator =>
    .ok ⟨sortBy (fun r1 r2 => collator r1.target r2.target) renames⟩

/-- Models `std::io::ErrorKind` (the kinds the code distinguishes). -/
inductive IoErrorKind where
  | notFound
  | permissionDenied
  | other
deriving DecidableEq, Repr

/-- Models `std::io::Error`: a kind plus a tag making distinct errors
distinguishable. -/
structure IoError where
  kind : IoErrorKind
  tag : Nat
deriving DecidableEq, Repr

/-- A filesystem entry, as seen without following a final symbolic link.
Files carry a tag so that a rename observably moves the same object. -/
inductive Node where
  | file (tag : Nat)
  | dir
  | symlink (target : FsPath)
deriving DecidableEq, Repr

/-- First value associated with a key in an association list. -/
def assoc {α β : Type _} [DecidableEq α] : List (α × β) → α → Option β
  | [], _ => none
  | (k, v) :: rest, a => if k = a then some v else assoc rest a

/-- The model of the operating system state `Rename::apply` runs against:
the entries of the filesystem plus oracles letting the environment inject
the I/O failures each syscall may return (a metadata error other than
not-found, a `create_dir_all` failure, a `rename` failure). -/
structure ConcreteFs where
  entries : List (FsPath × Node)
  metaErrs : List (FsPath × IoError)
  mkdirErrs : List (FsPath × IoError)
  renameErrs : List ((FsPath × FsPath) × IoError)
deriving DecidableEq, Repr

namespace ConcreteFs

/-- Models `Path::symlink_metadata`: succeeds exactly when an entry is
present at the path itself — a symlink is reported without dereferencing
it — unless the oracle injects an I/O failure for the lookup. -/
def symlink_metadata (fs : ConcreteFs) (p : FsPath) : Except IoError Unit :=
  match assoc fs.metaErrs p with
  | some e => .error e
  | none =>
    match assoc fs.entries p with
    | some _ => .ok ()
    | none => .error ⟨.notFound, 0⟩

/-- Resolve a path to a node, following symbolic links, with fuel bounding
the chain length (a link cycle resolves to nothing, as `fs::metadata`
fails with a link-loop error). -/
def resolveNode (fs : ConcreteFs) : Nat → FsPath → Option Node
  | 0, _ => none
  | fuel + 1, p =>
    match assoc fs.metaErrs p with
    | some _ => none
    | none =>
      match assoc fs.entries p with
      | some (Node.symlink t) => fs.resolveNode fuel t
      | some n => some n
      | none => none

/-- Models `Path::exists`: `fs::metadata(path).is_ok()`, which follows
symbolic links and treats any lookup failure as nonexistence. -/
def existsFollow (fs : ConcreteFs) (p : FsPath) : Bool :=
  (fs.resolveNode (fs.entries.length + 1) p).isSome

/-- Add a directory entry at `p` if none is present. -/
def insertDir (entries : List (FsPath × Node)) (p : FsPath) : List (FsPath × Node) :=
  match assoc entries p with
  | some _ => entries
  | none => (p, Node.dir) :: entries

/-- Models `fs::create_dir_all`: creates the directory and every missing
ancestor, unless the oracle injects a failure for this argument. -/
def create_dir_all (fs : ConcreteFs) (p : FsPath) : ConcreteFs × Option IoError :=
  match assoc fs.mkdirErrs p with
  | some e => (fs, some e)
  | none =>
    ({ fs with
        entries :=
          (p.ancestors.filter (fun a => !a.isEmptyOsStr)).foldl insertDir fs.entries },
      none)

/-- Drop the entry at `p`. -/
def removeEntry (entries : List (FsPath × Node)) (p : FsPath) : List (FsPath × Node) :=
  entries.filter (fun e => decide (e.1 ≠ p))

/-- Models `fs::rename`: moves the node at `source` to `target`, failing
with not-found when the source is absent, unless the oracle injects a
failure for this pair. -/
def rename (fs : ConcreteFs) (source target : FsPath) : ConcreteFs × Option IoError :=
  match assoc fs.renameErrs (source, target) with
  | some e => (fs, some e)
  | none =>
    match assoc fs.entries source with
    | none => (fs, some ⟨.notFound, 0⟩)
    | some n =>
      ({ fs with entries := (target, n) :: removeEntry fs.entries source }, none)

end ConcreteFs

/-- Models `fsutil::path_exists`: true when metadata can be retrieved, false
when the lookup reports not-found, the error itself otherwise. -/
def path_exists (fs : ConcreteFs) (path : FsPath) : Except IoError Bool :=
  match fs.symlink_metadata path with
  | .ok _ => .ok true
  | .error err => if err.kind = .notFound then .ok false else .error err

/-- Models `error::ApplyErrorDetails`. -/
inductive ApplyErrorDetails where
  | targetExists
  | io (e : IoError)
deriving DecidableEq, Repr

/-- Models `error::ApplyError`. -/
structure ApplyError where
  source : FsPath
  target : FsPath
  details : ApplyErrorDetails
deriving DecidableEq, Repr

/-- Models `ApplyError::target_exists`. -/
def ApplyError.target_exists (source target : FsPath) : ApplyError :=
  ⟨source, target, .targetExists⟩

/-- Models `ApplyError::from_io`. -/
def ApplyError.from_io (f t : FsPath) (e : IoError) : ApplyError :=
  ⟨f, t, .io e⟩

/-- Models `Rename::apply`, threading the filesystem state explicitly; the
second component is `none` on success and carries the `ApplyError` of the
failing step otherwise.  The steps mirror the source: existence check on the
target (wrapping a check failure), `TargetExists` bail-out, parent-directory
creation when the parent does not exist, then the rename, each filesystem
failure wrapped with the operation's source and target. -/
def Rename.apply (r : Rename) (fs : ConcreteFs) : ConcreteFs × Option ApplyError :=
  match path_exists fs r.target with
  | .error err => (fs, some (ApplyError.from_io r.source r.target err))
  | .ok true => (fs, some (ApplyError.target_exists r.source r.target))
  | .ok false =>
    match
      (match r.target.parent with
       | some target_parent =>
         if !fs.existsFollow target_parent then fs.create_dir_all target_parent
         else (fs, none)
       | none => (fs, none)) with
    | (fs1, some err) => (fs1, some (ApplyError.from_io r.source r.target err))
    | (fs1, none) =>
      match fs1.rename r.source r.target with
      | (fs2, some err) => (fs2, some (ApplyError.from_io r.source r.target err))
      | (fs2, none) => (fs2, none)

/-- The loop body of `Plan::apply`: run the operations in order, stopping at
the first failure (the `?` operator in the source). -/
def Plan.applyList (fs : ConcreteFs) : List Rename → ConcreteFs × Option ApplyError
  | [] => (fs, none)
  | r :: rs =>
    match r.apply fs with
    | (fs1, some e) => (fs1, some e)
    | (fs1, none) => Plan.applyList fs1 rs

/-- Models `Plan::apply`. -/
def Plan.apply (plan : Plan) (fs : ConcreteFs) : ConcreteFs × Option ApplyError :=
  Plan.applyList fs plan.renames

/-- Full runs of a batch: `AllSucceed fs l fs2` holds when applying the
operations of `l` in order from state `fs` succeeds at every step and ends
in state `fs2`. -/
inductive AllSucceed : ConcreteFs → List Rename → ConcreteFs → Prop
  | nil (fs : ConcreteFs) : AllSucceed fs [] fs
  | cons {fs fs1 fs2 : ConcreteFs} {r : Rename} {rs : List Rename} :
      r.apply fs = (fs1, none) → AllSucceed fs1 rs fs2 → AllSucceed fs (r :: rs) fs2

namespace LawfulCmp

variable {α : Type _} {cmp : α → α → Ordering}

theorem gt_iff (h : LawfulCmp cmp) {a b : α} : cmp a b = .gt ↔ cmp b a = .lt := by
  rw [h.symm a b]
  cases cmp b a <;> simp [Ordering.swap]

theorem eq_iff (h : LawfulCmp cmp) {a b : α} : cmp a b = .eq ↔ cmp b a = .eq := by
  rw [h.symm a b]
  cases cmp b a <;> simp [Ordering.swap]

theorem not_gt_iff_not_lt (h : LawfulCmp cmp) {a b : α} : cmp a b ≠ .gt ↔ cmp b a ≠ .lt := by
  rw [h.symm a b]
  cases cmp b a <;> simp [Ordering.swap]

theorem not_gt_of_lt {a b : α} (hab : cmp a b = .lt) : cmp a b ≠ .gt := by
  simp [hab]

theorem not_gt_of_eq {a b : α} (hab : cmp a b = .eq) : cmp a b ≠ .gt := by
  simp [hab]

theorem eq_of_le_ge (h : LawfulCmp cmp) {a b : α} (hab : cmp a b ≠ .gt)
    (hba : cmp b a ≠ .gt) : cmp a b = .eq := by
  have hnl : cmp a b ≠ .lt := (h.not_gt_iff_not_lt).mp hba
  cases hc : cmp a b
  · exact absurd hc hnl
  · rfl
  · exact absurd hc hab

theorem lt_of_lt_of_le (h : LawfulCmp cmp) {a b c : α} (hab : cmp a b = .lt)
    (hbc : cmp b c ≠ .gt) : cmp a c = .lt := by
  by_contra hne
  have hca : cmp c a ≠ .gt := (h.not_gt_iff_not_lt).mpr hne
  have hba : cmp b a ≠ .gt := h.le_trans hbc hca
  have : cmp a b ≠ .lt := (h.not_gt_iff_not_lt).mp hba
  exact this hab

theorem lt_of_le_of_lt (h : LawfulCmp cmp) {a b c : α} (hab : cmp a b ≠ .gt)
    (hbc : cmp b c = .lt) : cmp a c = .lt := by
  by_contra hne
  have hca : cmp c a ≠ .gt := (h.not_gt_iff_not_lt).mpr hne
  have hcb : cmp c b ≠ .gt := h.le_trans hca hab
  have : cmp b c ≠ .lt := (h.not_gt_iff_not_lt).mp hcb
  exact this hbc

theorem eq_trans (h : LawfulCmp cmp) {a b c : α} (hab : cmp a b = .eq)
    (hbc : cmp b c = .eq) : cmp a c = .eq := by
  have h1 : cmp a c ≠ .gt := h.le_trans (not_gt_of_eq hab) (not_gt_of_eq hbc)
  have h2 : cmp c a ≠ .gt :=
    h.le_trans (not_gt_of_eq ((h.eq_iff).mp hbc)) (not_gt_of_eq ((h.eq_iff).mp hab))
  exact h.eq_of_le_ge h1 h2

theorem comap (h : LawfulCmp cmp) {β : Type _} (f : β → α) :
    LawfulCmp (fun x y => cmp (f x) (f y)) where
  symm a b := h.symm (f a) (f b)
  le_trans hab hbc := h.le_trans hab hbc

end LawfulCmp

theorem cmpOfLinear_not_gt_iff {α : Type _} [LinearOrder α] {a b : α} :
    cmpOfLinear a b ≠ .gt ↔ a ≤ b := by
  unfold cmpOfLinear
  rcases lt_trichotomy a b with hlt | heq | hgt
  · simp [hlt, le_of_lt hlt]
  · simp [heq]
  · simp [not_lt_of_gt hgt, ne_of_gt hgt, not_le_of_gt hgt]

theorem cmpOfLinear_lawful {α : Type _} [LinearOrder α] :
    LawfulCmp (cmpOfLinear (α := α)) where
  symm a b := by
    unfold cmpOfLinear
    rcases lt_trichotomy a b with hlt | heq | hgt
    · simp [hlt, not_lt_of_gt hlt, (ne_of_lt hlt).symm, Ordering.swap]
    · simp [heq, Ordering.swap]
    · simp [hgt, not_lt_of_gt hgt, ne_of_gt hgt, (ne_of_gt hgt).symm, Ordering.swap]
  le_trans {a b c} hab hbc := by
    rw [cmpOfLinear_not_gt_iff] at hab hbc ⊢
    exact le_trans hab hbc

theorem cmpList_lawful {α : Type _} {c : α → α → Ordering} (hc : LawfulCmp c) :
    LawfulCmp (cmpList c) where
  symm as := by
    induction as with
    | nil => intro bs; cases bs <;> simp [cmpList, Ordering.swap]
    | cons a as ih =>
      intro bs
      cases bs with
      | nil => simp [cmpList, Ordering.swap]
      | cons b bs =>
        simp only [cmpList]
        rw [hc.symm a b]
        cases c b a <;> simp [Ordering.swap, ih bs]
  le_trans {as} := by
    induction as with
    | nil =>
      intro bs cs _ _
      cases cs <;> simp [cmpList]
    | cons a as ih =>
      intro bs cs hab hbc
      cases bs with
      | nil => simp [cmpList] at hab
      | cons b bs =>
        cases cs with
        | nil => simp [cmpList] at hbc
        | cons cc cs =>
          simp only [cmpList] at hab hbc ⊢
          cases h1 : c a b with
          | gt => simp [h1] at hab
          | lt =>
            cases h2 : c b cc with
            | gt => simp [h2] at hbc
            | lt =>
              have := hc.lt_of_lt_of_le h1 (LawfulCmp.not_gt_of_lt h2)
              simp [this]
            | eq =>
              have := hc.lt_of_lt_of_le h1 (LawfulCmp.not_gt_of_eq h2)
              simp [this]
          | eq =>
            cases h2 : c b cc with
            | gt => simp [h2] at hbc
            | lt =>
              have := hc.lt_of_le_of_lt (LawfulCmp.not_gt_of_eq h1) h2
              simp [this]
            | eq =>
              have heq : c a cc = .eq := hc.eq_trans h1 h2
              simp only [h1] at hab
              simp only [h2] at hbc
              simp only [heq]
              exact ih hab hbc

theorem cmpString_lawful : LawfulCmp cmpString :=
  (cmpList_lawful cmpOfLinear_lawful).comap (fun s : String => s.data.map Char.toNat)

theorem cmpComponent_lawful : LawfulCmp cmpComponent where
  symm a b := by
    cases a <;> cases b
    · rfl
    · rfl
    · rfl
    · exact cmpString_lawful.symm _ _
  le_trans {a b c} hab hbc := by
    cases a <;> cases b <;> cases c <;>
      simp_all [cmpComponent]
    exact cmpString_lawful.le_trans hab hbc

theorem pathCmp_lawful : LawfulCmp pathCmp :=
  (cmpList_lawful cmpComponent_lawful).comap FsPath.fullComponents

section SortLemmas

variable {α : Type _} {cmp : α → α → Ordering}

theorem insertBy_perm (cmp : α → α → Ordering) (a : α) (l : List α) :
    (insertBy cmp a l).Perm (a :: l) := by
  induction l with
  | nil => exact List.Perm.refl _
  | cons b bs ih =>
    simp only [insertBy]
    split
    · exact (ih.cons b).trans (List.Perm.swap a b bs)
    · exact List.Perm.refl _

theorem sortBy_perm (cmp : α → α → Ordering) (l : List α) :
    (sortBy cmp l).Perm l := by
  induction l with
  | nil => exact List.Perm.refl _
  | cons a as ih =>
    exact (insertBy_perm cmp a (sortBy cmp as)).trans (ih.cons a)

theorem mem_insertBy {a x : α} {l : List α} (hx : x ∈ insertBy cmp a l) :
    x = a ∨ x ∈ l := by
  have := (insertBy_perm cmp a l).mem_iff.mp hx
  simpa using this

theorem insertBy_pairwise (h : LawfulCmp cmp) {a : α} {l : List α}
    (hl : l.Pairwise (fun x y => cmp x y ≠ .gt)) :
    (insertBy cmp a l).Pairwise (fun x y => cmp x y ≠ .gt) := by
  induction l with
  | nil => simp [insertBy]
  | cons b bs ih =>
    rcases List.pairwise_cons.mp hl with ⟨hb, hbs⟩
    simp only [insertBy]
    split
    · rename_i hgt
      refine List.pairwise_cons.mpr ⟨?_, ih hbs⟩
      intro x hx
      rcases mem_insertBy hx with rfl | hxbs
      · exact LawfulCmp.not_gt_of_lt ((h.gt_iff).mp hgt)
      · exact hb x hxbs
    · rename_i hngt
      refine List.pairwise_cons.mpr ⟨?_, hl⟩
      intro x hx
      rcases hx with _ | hxbs
      · exact hngt
      · exact h.le_trans hngt (hb x (by assumption))

theorem sortBy_pairwise (h : LawfulCmp cmp) (l : List α) :
    (sortBy cmp l).Pairwise (fun x y => cmp x y ≠ .gt) := by
  induction l with
  | nil => simp [sortBy]
  | cons a as ih => exact insertBy_pairwise h ih

theorem insertBy_filter_eq (h : LawfulCmp cmp) (a : α) (l : List α) (k : α) :
    (insertBy cmp a l).filter (fun x => decide (cmp x k = .eq)) =
      if cmp a k = .eq then a :: l.filter (fun x => decide (cmp x k = .eq))
      else l.filter (fun x => decide (cmp x k = .eq)) := by
  induction l with
  | nil => by_cases hak : cmp a k = .eq <;> simp [insertBy, hak]
  | cons b bs ih =>
    simp only [insertBy]
    split
    · rename_i hgt
      by_cases hak : cmp a k = .eq
      · have hbk : cmp b k ≠ .eq := by
          intro hbk
          have : cmp a b = .eq := h.eq_trans hak ((h.eq_iff).mp hbk)
          simp [this] at hgt
        by_cases hb : cmp b k = .eq
        · exact absurd hb hbk
        · simp only [List.filter_cons, hb, decide_eq_true_eq, if_neg hbk,
            decide_eq_false hbk] at *
          simpa [hak, hb] using ih
      · simp only [List.filter_cons]
        by_cases hb : cmp b k = .eq <;> simp [hb, hak] at ih ⊢ <;> simp [ih]
    · by_cases hak : cmp a k = .eq <;> simp [List.filter_cons, hak]

theorem sortBy_filter_eq (h : LawfulCmp cmp) (l : List α) (k : α) :
    (sortBy cmp l).filter (fun x => decide (cmp x k = .eq)) =
      l.filter (fun x => decide (cmp x k = .eq)) := by
  induction l with
  | nil => rfl
  | cons a as ih =>
    simp only [sortBy]
    rw [insertBy_filter_eq h]
    by_cases hak : cmp a k = .eq
    · simp [hak, List.filter_cons, ih]
    · simp [hak, List.filter_cons, ih]

end SortLemmas

namespace FsPath

theorem length_le_of_mem_ancestorsComps {cs x : List String}
    (hx : x ∈ ancestorsComps cs) : x.length ≤ cs.length := by
  induction cs generalizing x with
  | nil =>
    simp only [ancestorsComps, List.mem_singleton] at hx
    simp [hx]
  | cons a as ih =>
    simp only [ancestorsComps, List.mem_append, List.mem_map,
      List.mem_singleton] at hx
    rcases hx with ⟨y, hy, rfl⟩ | rfl
    · simpa using ih hy
    · simp

theorem exists_append_of_mem_ancestorsComps {cs x : List String}
    (hx : x ∈ ancestorsComps cs) : ∃ r, x ++ r = cs := by
  induction cs generalizing x with
  | nil =>
    simp only [ancestorsComps, List.mem_singleton] at hx
    exact ⟨[], by simp [hx]⟩
  | cons a as ih =>
    simp only [ancestorsComps, List.mem_append, List.mem_map,
      List.mem_singleton] at hx
    rcases hx with ⟨y, hy, rfl⟩ | rfl
    · rcases ih hy with ⟨r, hr⟩
      exact ⟨r, by simp [hr]⟩
    · exact ⟨a :: as, rfl⟩

theorem ancestorsComps_pairwise (cs : List String) :
    (ancestorsComps cs).Pairwise (fun x y => y.length ≤ x.length) := by
  induction cs with
  | nil => simp [ancestorsComps]
  | cons a as ih =>
    simp only [ancestorsComps]
    rw [List.pairwise_append]
    refine ⟨?_, by simp, ?_⟩
    · rw [List.pairwise_map]
      exact ih.imp (fun h => by simpa using Nat.succ_le_succ h)
    · intro x hx y hy
      simp only [List.mem_singleton] at hy
      simp [hy]

theorem stripFull_append (b r : List (Option String)) : stripFull (b ++ r) b = some r := by
  induction b with
  | nil => simp [stripFull]
  | cons a as ih => simp [stripFull, ih]

theorem eq_append_of_stripFull {p b r : List (Option String)}
    (hp : stripFull p b = some r) : b ++ r = p := by
  induction b generalizing p with
  | nil =>
    simp only [stripFull] at hp
    simpa using hp.symm
  | cons x bs ih =>
    cases p with
    | nil => simp [stripFull] at hp
    | cons y ps =>
      simp only [stripFull] at hp
      split at hp
      · rename_i heq
        rw [heq]
        simpa using ih hp
      · exact absurd hp (by simp)

theorem fullComponents_append (ab : Bool) (x r : List String) :
    (FsPath.mk ab (x ++ r)).fullComponents =
      (FsPath.mk ab x).fullComponents ++ r.map some := by
  simp [fullComponents, List.append_assoc]

theorem startsWith_of_append (ab : Bool) (x r : List String) :
    FsPath.startsWith ⟨ab, x ++ r⟩ ⟨ab, x⟩ = true := by
  simp [startsWith, fullComponents_append, stripFull_append]

theorem strip_prefix_isSome (p b : FsPath) :
    ( FsPath.strip_prefix p b).isSome = p.startsWith b := by
  unfold FsPath.strip_prefix startsWith
  cases stripFull p.fullComponents b.fullComponents <;> simp

theorem mem_ancestors {p c : FsPath} (hc : c ∈ p.ancestors) :
    c.absolute = p.absolute ∧ c.components ∈ ancestorsComps p.components := by
  rcases List.mem_map.mp hc with ⟨cs, hcs, rfl⟩
  exact ⟨rfl, hcs⟩

theorem startsWith_of_mem_ancestors {p c : FsPath} (hc : c ∈ p.ancestors) :
    p.startsWith c = true := by
  rcases mem_ancestors hc with ⟨hab, hcs⟩
  rcases exists_append_of_mem_ancestorsComps hcs with ⟨r, hr⟩
  have hp : p = ⟨p.absolute, c.components ++ r⟩ := by
    cases p
    simp only at hr ⊢
    rw [hr]
  rw [hp]
  have hc' : c = ⟨p.absolute, c.components⟩ := by
    cases c
    simp only at hab ⊢
    rw [hab]
  conv in FsPath.startsWith _ _ => rw [hc']
  exact startsWith_of_append p.absolute c.components r

theorem ancestors_pairwise (p : FsPath) :
    p.ancestors.Pairwise (fun x y => y.components.length ≤ x.components.length) := by
  unfold ancestors
  rw [List.pairwise_map]
  exact ancestorsComps_pairwise p.components

end FsPath

theorem find?_first_of_pairwise {α : Type _} {R : α → α → Prop} {l : List α}
    {q : α → Bool} {c : α} (hp : l.Pairwise R) (hf : l.find? q = some c) :
    ∀ a ∈ l, q a = true → a = c ∨ R c a := by
  induction l with
  | nil => simp
  | cons b bs ih =>
    rcases List.pairwise_cons.mp hp with ⟨hb, hbs⟩
    intro a ha hqa
    by_cases hqb : q b = true
    · rw [List.find?_cons_of_pos _ hqb] at hf
      have hcb : b = c := Option.some.inj hf
      rcases List.mem_cons.mp ha with rfl | habs
      · exact Or.inl hcb
      · exact Or.inr (hcb ▸ hb a habs)
    · rw [List.find?_cons_of_neg _ (by simpa using hqb)] at hf
      rcases List.mem_cons.mp ha with rfl | habs
      · exact absurd hqa hqb
      · exact ih hbs hf a habs hqa

theorem common_ancestor_some {p1 p2 c : FsPath} (h : common_ancestor p1 p2 = some c) :
    c ∈ p1.ancestors ∧ c.isEmptyOsStr = false ∧ p2.startsWith c = true := by
  unfold common_ancestor at h
  have hmem := List.mem_of_find?_eq_some h
  have hpred := List.find?_some h
  simp only [Bool.and_eq_true, Bool.not_eq_true'] at hpred
  exact ⟨hmem, hpred.1, hpred.2⟩

theorem common_ancestor_deepest {p1 p2 c : FsPath} (h : common_ancestor p1 p2 = some c) :
    ∀ a ∈ p1.ancestors, a.isEmptyOsStr = false → p2.startsWith a = true →
      a.components.length ≤ c.components.length := by
  intro a ha hemp hsw
  unfold common_ancestor at h
  have := find?_first_of_pairwise (FsPath.ancestors_pairwise p1) h a ha
    (by simp [hemp, hsw])
  rcases this with rfl | hle
  · exact le_refl _
  · exact hle

theorem common_ancestor_none {p1 p2 : FsPath} :
    common_ancestor p1 p2 = none ↔
      ∀ a ∈ p1.ancestors, a.isEmptyOsStr = true ∨ p2.startsWith a = false := by
  unfold common_ancestor
  rw [List.find?_eq_none]
  constructor
  · intro h a ha
    have := h a ha
    simp only [Bool.and_eq_true, Bool.not_eq_true', not_and] at this
    by_cases hemp : a.isEmptyOsStr = true
    · exact Or.inl hemp
    · have hc := this (by simpa using hemp)
      exact Or.inr (by simpa using hc)
  · intro h a ha
    rcases h a ha with hemp | hsw
    · simp [hemp]
    · simp [hsw]

namespace ConcreteFs

theorem assoc_insertDir_self (es : List (FsPath × Node)) (p : FsPath) :
    (assoc (insertDir es p) p).isSome = true := by
  unfold insertDir
  cases h : assoc es p with
  | some n => simp [h]
  | none => simp [assoc]

theorem assoc_insertDir_isSome {es : List (FsPath × Node)} {q : FsPath} (p : FsPath)
    (hq : (assoc es q).isSome = true) : (assoc (insertDir es p) q).isSome = true := by
  unfold insertDir
  cases h : assoc es p with
  | some n => exact hq
  | none =>
    simp only [assoc]
    split
    · simp
    · exact hq

theorem assoc_foldl_insertDir_isSome {es : List (FsPath × Node)} {q : FsPath}
    (l : List FsPath) (hq : (assoc es q).isSome = true) :
    (assoc (l.foldl insertDir es) q).isSome = true := by
  induction l generalizing es with
  | nil => exact hq
  | cons p ps ih => exact ih (assoc_insertDir_isSome p hq)

theorem assoc_foldl_insertDir_of_mem {q : FsPath} (l : List FsPath)
    (es : List (FsPath × Node)) (hq : q ∈ l) :
    (assoc (l.foldl insertDir es) q).isSome = true := by
  induction l generalizing es with
  | nil => simp at hq
  | cons p ps ih =>
    rcases List.mem_cons.mp hq with rfl | hps
    · exact assoc_foldl_insertDir_isSome ps (assoc_insertDir_self es q)
    · exact ih _ hps

theorem create_dir_all_entries {fs : ConcreteFs} {p : FsPath}
    (hok : assoc fs.mkdirErrs p = none) :
    ∀ a ∈ p.ancestors, a.isEmptyOsStr = false →
      (assoc ((fs.create_dir_all p).1).entries a).isSome = true := by
  intro a ha hemp
  unfold create_dir_all
  rw [hok]
  simp only
  exact assoc_foldl_insertDir_of_mem _ _ (List.mem_filter.mpr ⟨ha, by simp [hemp]⟩)

end ConcreteFs

theorem path_exists_metaErr {fs : ConcreteFs} {p : FsPath} {e : IoError}
    (hm : assoc fs.metaErrs p = some e) :
    path_exists fs p = if e.kind = .notFound then .ok false else .error e := by
  unfold path_exists ConcreteFs.symlink_metadata
  rw [hm]

theorem path_exists_noMetaErr {fs : ConcreteFs} {p : FsPath}
    (hm : assoc fs.metaErrs p = none) :
    path_exists fs p = if (assoc fs.entries p).isSome then .ok true else .ok false := by
  unfold path_exists ConcreteFs.symlink_metadata
  rw [hm]
  cases assoc fs.entries p with
  | some n => rfl
  | none => rfl

theorem path_exists_of_entry {fs : ConcreteFs} {p : FsPath}
    (hent : (assoc fs.entries p).isSome = true)
    (hm : assoc fs.metaErrs p = none) : path_exists fs p = .ok true := by
  rw [path_exists_noMetaErr hm]
  simp [hent]

theorem apply_mkdirFail {r : Rename} {fs : ConcreteFs} {tp : FsPath} {e : IoError}
    (hpe : path_exists fs r.target = .ok false)
    (hparent : r.target.parent = some tp)
    (hmiss : fs.existsFollow tp = false)
    (he : assoc fs.mkdirErrs tp = some e) :
    r.apply fs = (fs, some (ApplyError.from_io r.source r.target e)) := by
  unfold Rename.apply ConcreteFs.create_dir_all
  rw [hpe, hparent]
  simp [hmiss, he]

theorem apply_renameStep {r : Rename} {fs : ConcreteFs} {tp : FsPath}
    (hpe : path_exists fs r.target = .ok false)
    (hparent : r.target.parent = some tp)
    (hmiss : fs.existsFollow tp = false)
    (hok : assoc fs.mkdirErrs tp = none) :
    r.apply fs =
      (match (fs.create_dir_all tp).1.rename r.source r.target with
       | (fs2, some err) => (fs2, some (ApplyError.from_io r.source r.target err))
       | (fs2, none) => (fs2, none)) := by
  unfold Rename.apply ConcreteFs.create_dir_all
  rw [hpe, hparent]
  simp [hmiss, hok]

theorem applyList_none_iff {fs fs2 : ConcreteFs} {l : List Rename} :
    Plan.applyList fs l = (fs2, none) ↔ AllSucceed fs l fs2 := by
  induction l generalizing fs with
  | nil =>
    constructor
    · intro h
      simp only [Plan.applyList, Prod.mk.injEq] at h
      rw [h.1]
      exact AllSucceed.nil fs2
    · intro h
      cases h
      rfl
  | cons r rs ih =>
    constructor
    · intro h
      simp only [Plan.applyList] at h
      rcases happ : r.apply fs with ⟨fs1, o⟩
      rw [happ] at h
      cases o with
      | some e => exact absurd h (by simp)
      | none => exact AllSucceed.cons happ (ih.mp h)
    · intro h
      cases h with
      | cons happ htail =>
        simp only [Plan.applyList, happ]
        exact ih.mpr htail

theorem applyList_some {fs fs2 : ConcreteFs} {l : List Rename} {e : ApplyError}
    (h : Plan.applyList fs l = (fs2, some e)) :
    ∃ l1 r l2 fsm, l = l1 ++ r :: l2 ∧ AllSucceed fs l1 fsm ∧
      r.apply fsm = (fs2, some e) := by
  induction l generalizing fs with
  | nil => simp [Plan.applyList] at h
  | cons r rs ih =>
    simp only [Plan.applyList] at h
    rcases happ : r.apply fs with ⟨fs1, o⟩
    rw [happ] at h
    cases o with
    | some e0 =>
      simp only [Prod.mk.injEq, Option.some.injEq] at h
      refine ⟨[], r, rs, fs, rfl, AllSucceed.nil fs, ?_⟩
      rw [happ, h.1, h.2]
    | none =>
      rcases ih h with ⟨l1, r1, l2, fsm, rfl, hall, hfail⟩
      exact ⟨r :: l1, r1, l2, fsm, rfl, AllSucceed.cons happ hall, hfail⟩

/-- C1: for every renamer, the plan produced by `plan` under a lawful
comparator satisfies both invariants: no retained operation has source equal
to target — the plan is exactly a permutation of the pending operations with
`source ≠ target`, so every no-op pair is removed — and the retained
operations are sorted ascending by target under the selected order. -/
theorem claim_C1_plan_invariants {cmp : FsPath → FsPath → Ordering}
    (h : LawfulCmp cmp) (r : Renamer) (pl : Plan)
    (hpl : Renamer.plan (.ok cmp) r = .ok pl) :
    (∀ op ∈ pl.renames, op.source ≠ op.target) ∧
    pl.renames.Pairwise (fun a b => cmp a.target b.target ≠ .gt) ∧
    pl.renames.Perm (r.renames.filter (fun rn => decide (rn.source ≠ rn.target))) := by
  have hplval : pl = ⟨sortBy (fun r1 r2 => cmp r1.target r2.target)
      (r.renames.filter (fun rn => decide (rn.source ≠ rn.target)))⟩ := by
    simp only [Renamer.plan] at hpl
    exact (Except.ok.inj hpl).symm
  subst hplval
  refine ⟨?_, ?_, sortBy_perm _ _⟩
  · intro op hop
    have hmem := (sortBy_perm _ _).mem_iff.mp hop
    have := List.mem_filter.mp hmem
    simpa using this.2
  · exact sortBy_pairwise (h.comap (fun rn : Rename => rn.target)) _

/-- C1 witness: a concrete renamer with targets added in order b, a, n, c and
one no-op pair (n, n), planned under the default `Path::cmp` order, yields
the plan sorted a, b, c with the no-op removed. -/
theorem claim_C1_witness :
    (∀ op ∈ (Plan.mk [⟨pRel ["s2"], pRel ["a"]⟩, ⟨pRel ["s1"], pRel ["b"]⟩,
        ⟨pRel ["s3"], pRel ["c"]⟩]).renames, op.source ≠ op.target) ∧
    (Plan.mk [⟨pRel ["s2"], pRel ["a"]⟩, ⟨pRel ["s1"], pRel ["b"]⟩,
        ⟨pRel ["s3"], pRel ["c"]⟩]).renames.Pairwise
      (fun a b => pathCmp a.target b.target ≠ .gt) ∧
    (Plan.mk [⟨pRel ["s2"], pRel ["a"]⟩, ⟨pRel ["s1"], pRel ["b"]⟩,
        ⟨pRel ["s3"], pRel ["c"]⟩]).renames.Perm
      ((Renamer.mk [⟨pRel ["s1"], pRel ["b"]⟩, ⟨pRel ["s2"], pRel ["a"]⟩,
          ⟨pRel ["n"], pRel ["n"]⟩, ⟨pRel ["s3"], pRel ["c"]⟩]).renames.filter
        (fun rn => decide (rn.source ≠ rn.target))) :=
  claim_C1_plan_invariants pathCmp_lawful
    (Renamer.mk [⟨pRel ["s1"], pRel ["b"]⟩, ⟨pRel ["s2"], pRel ["a"]⟩,
      ⟨pRel ["n"], pRel ["n"]⟩, ⟨pRel ["s3"], pRel ["c"]⟩])
    (Plan.mk [⟨pRel ["s2"], pRel ["a"]⟩, ⟨pRel ["s1"], pRel ["b"]⟩,
      ⟨pRel ["s3"], pRel ["c"]⟩])
    (by rfl)

/-- C4: the sort in `plan` is stable — for any key, the plan's operations
whose target compares equal to the key are exactly the retained pending
operations with that target, in their original insertion order; in
particular several sources mapping to one target are all retained. -/
theorem claim_C4_stable_sort {cmp : FsPath → FsPath → Ordering}
    (h : LawfulCmp cmp) (r : Renamer) (pl : Plan) (k : FsPath)
    (hpl : Renamer.plan (.ok cmp) r = .ok pl) :
    pl.renames.filter (fun op => decide (cmp op.target k = .eq)) =
      r.renames.filter
        (fun op => decide (cmp op.target k = .eq) && decide (op.source ≠ op.target)) := by
  have hplval : pl = ⟨sortBy (fun r1 r2 => cmp r1.target r2.target)
      (r.renames.filter (fun rn => decide (rn.source ≠ rn.target)))⟩ := by
    simp only [Renamer.plan] at hpl
    exact (Except.ok.inj hpl).symm
  subst hplval
  have hstable := sortBy_filter_eq (h.comap (fun rn : Rename => rn.target))
    (r.renames.filter (fun rn => decide (rn.source ≠ rn.target))) (Rename.new k k)
  rw [List.filter_filter] at hstable
  exact hstable

/-- C4 witness: two operations on the same target "t", inserted from sources
s1 then s2 around a differently-targeted operation, are both retained in the
plan and keep their insertion order under the default `Path::cmp` order. -/
theorem claim_C4_witness :
    (Plan.mk [⟨pRel ["s1"], pRel ["t"]⟩, ⟨pRel ["s2"], pRel ["t"]⟩,
        ⟨pRel ["s3"], pRel ["z"]⟩]).renames.filter
      (fun op => decide (pathCmp op.target (pRel ["t"]) = .eq)) =
    (Renamer.mk [⟨pRel ["s1"], pRel ["t"]⟩, ⟨pRel ["s3"], pRel ["z"]⟩,
        ⟨pRel ["s2"], pRel ["t"]⟩]).renames.filter
      (fun op => decide (pathCmp op.target (pRel ["t"]) = .eq) &&
        decide (op.source ≠ op.target)) :=
  claim_C4_stable_sort pathCmp_lawful
    (Renamer.mk [⟨pRel ["s1"], pRel ["t"]⟩, ⟨pRel ["s3"], pRel ["z"]⟩,
      ⟨pRel ["s2"], pRel ["t"]⟩])
    (Plan.mk [⟨pRel ["s1"], pRel ["t"]⟩, ⟨pRel ["s2"], pRel ["t"]⟩,
      ⟨pRel ["s3"], pRel ["z"]⟩])
    (pRel ["t"]) (by rfl)

/-- C5: `plan` never fails on data — with a successfully initialized
comparator it succeeds on every renamer contents, the only failure is the
collator-initialization error passed through, and the empty renamer plans
to the empty plan. -/
theorem claim_C5_plan_error_only_collator :
    (∀ (cmp : FsPath → FsPath → Ordering) (r : Renamer),
       ∃ pl, Renamer.plan (.ok cmp) r = .ok pl) ∧
    (∀ (e : IcuError) (r : Renamer),
       Renamer.plan (.error e) r = .error (.icuCollator e)) ∧
    (∀ cmp : FsPath → FsPath → Ordering,
       Renamer.plan (.ok cmp) Renamer.new = .ok (Plan.mk [])) :=
  ⟨fun _ _ => ⟨_, rfl⟩, fun _ _ => rfl, fun _ => rfl⟩

/-- C7: `common_ancestor p1 p2` returns a deepest textually nonempty
ancestor of `p1` that `p2` starts with, `none` exactly when no ancestor
qualifies, and takes the spec's values on its four example pairs. -/
theorem claim_C7_common_ancestor :
    (∀ p1 p2 c : FsPath, common_ancestor p1 p2 = some c →
       c ∈ p1.ancestors ∧ c.isEmptyOsStr = false ∧ p2.startsWith c = true ∧
       ∀ a ∈ p1.ancestors, a.isEmptyOsStr = false → p2.startsWith a = true →
         a.components.length ≤ c.components.length) ∧
    (∀ p1 p2 : FsPath, common_ancestor p1 p2 = none ↔
       ∀ a ∈ p1.ancestors, a.isEmptyOsStr = true ∨ p2.startsWith a = false) ∧
    common_ancestor (pAbs ["a", "b", "c", "d"]) (pAbs ["a", "b", "e", "f"]) =
      some (pAbs ["a", "b"]) ∧
    common_ancestor (pAbs ["a", "b", "c", "d"]) (pAbs ["a", "b", "c", "d", "e", "f"]) =
      some (pAbs ["a", "b", "c", "d"]) ∧
    common_ancestor (pAbs ["a", "b", "c", "d"]) (pAbs ["x", "y", "z"]) = some (pAbs []) ∧
    common_ancestor (pRel ["a", "b", "c", "d"]) (pRel ["x", "y", "z"]) = none := by
  refine ⟨?_, ?_, by decide, by decide, by decide, by decide⟩
  · intro p1 p2 c hc
    rcases common_ancestor_some hc with ⟨hmem, hemp, hsw⟩
    exact ⟨hmem, hemp, hsw, common_ancestor_deepest hc⟩
  · intro p1 p2
    exact common_ancestor_none

/-- C7 witness: instantiating the characterization on the first example pair:
"/a/b" is an ancestor of "/a/b/c/d", is nonempty, and "/a/b/e/f" starts
with it. -/
theorem claim_C7_witness :
    (pAbs ["a", "b"]) ∈ (pAbs ["a", "b", "c", "d"]).ancestors ∧
    (pAbs ["a", "b"]).isEmptyOsStr = false ∧
    (pAbs ["a", "b", "e", "f"]).startsWith (pAbs ["a", "b"]) = true := by
  have h := claim_C7_common_ancestor.1 (pAbs ["a", "b", "c", "d"])
    (pAbs ["a", "b", "e", "f"]) (pAbs ["a", "b"]) (by decide)
  exact ⟨h.1, h.2.1, h.2.2.1⟩

/-- C10: whenever `common_ancestor` returns an ancestor, both paths start
with it and it is nonempty, so the two `strip_prefix(...).unwrap()` calls in
the grouped rendering cannot panic; consequently `display` always produces
a string. -/
theorem claim_C10_display_never_panics :
    (∀ p1 p2 c : FsPath, common_ancestor p1 p2 = some c →
       p1.startsWith c = true ∧ p2.startsWith c = true ∧ c.isEmptyOsStr = false ∧
       FsPath.strip_prefix p1 c ≠ none ∧ FsPath.strip_prefix p2 c ≠ none) ∧
    (∀ r : Rename, (Rename.display r).isSome = true) := by
  have main : ∀ p1 p2 c : FsPath, common_ancestor p1 p2 = some c →
      p1.startsWith c = true ∧ p2.startsWith c = true ∧ c.isEmptyOsStr = false ∧
      FsPath.strip_prefix p1 c ≠ none ∧ FsPath.strip_prefix p2 c ≠ none := by
    intro p1 p2 c hc
    rcases common_ancestor_some hc with ⟨hmem, hemp, hsw⟩
    have h1 : p1.startsWith c = true := FsPath.startsWith_of_mem_ancestors hmem
    refine ⟨h1, hsw, hemp, ?_, ?_⟩
    · rw [Option.ne_none_iff_isSome, FsPath.strip_prefix_isSome, h1]
    · rw [Option.ne_none_iff_isSome, FsPath.strip_prefix_isSome, hsw]
  refine ⟨main, ?_⟩
  intro r
  cases hca : common_ancestor r.source r.target with
  | none => simp [Rename.display, hca]
  | some c =>
    rcases main r.source r.target c hca with ⟨h1, h2, -, hs1, hs2⟩
    rcases Option.ne_none_iff_exists.mp hs1 with ⟨s, hs⟩
    rcases Option.ne_none_iff_exists.mp hs2 with ⟨t, ht⟩
    simp [Rename.display, hca, hs.symm, ht.symm]

/-- C10 witness: on the pair "/a/b/c/d", "/a/b/e/f" with ancestor "/a/b",
both paths start with the ancestor and neither strip can fail. -/
theorem claim_C10_witness :
    (pAbs ["a", "b", "c", "d"]).startsWith (pAbs ["a", "b"]) = true ∧
    (pAbs ["a", "b", "e", "f"]).startsWith (pAbs ["a", "b"]) = true ∧
    (pAbs ["a", "b"]).isEmptyOsStr = false ∧
    FsPath.strip_prefix (pAbs ["a", "b", "c", "d"]) (pAbs ["a", "b"]) ≠ none ∧
    FsPath.strip_prefix (pAbs ["a", "b", "e", "f"]) (pAbs ["a", "b"]) ≠ none :=
  claim_C10_display_never_panics.1 (pAbs ["a", "b", "c", "d"])
    (pAbs ["a", "b", "e", "f"]) (pAbs ["a", "b"]) (by decide)

/-- C6 counterexample: for the absolute pair "/a/b" → "/x/y", whose only
shared ancestor is the root, the code renders the grouped form
"//(a/b => x/y)" (with braces), not the ungrouped "/a/b => /x/y" the claim
asserts. -/
theorem claim_C6_counterexample :
    Rename.display ⟨pAbs ["a", "b"], pAbs ["x", "y"]⟩ =
      some "//\x7ba/b => x/y\x7d" ∧
    Rename.display ⟨pAbs ["a", "b"], pAbs ["x", "y"]⟩ ≠ some "/a/b => /x/y" := by
  constructor
  · decide
  · decide

/-- C6 (amended): the grouped form is used exactly when `common_ancestor`
returns an ancestor — any textually nonempty one, the filesystem root
included — and the ungrouped form exactly when no common ancestor exists
(e.g., unrelated relative paths). -/
theorem claim_C6_display_grouping (r : Rename) :
    (common_ancestor r.source r.target = none →
       Rename.display r = some (r.source.render ++ " => " ++ r.target.render)) ∧
    (∀ c, common_ancestor r.source r.target = some c →
       ∃ s t, FsPath.strip_prefix r.source c = some s ∧
         FsPath.strip_prefix r.target c = some t ∧
         Rename.display r =
           some (c.render ++ "/\x7b" ++ s.render ++ " => " ++ t.render ++ "\x7d")) := by
  constructor
  · intro hca
    simp [Rename.display, hca]
  · intro c hca
    rcases common_ancestor_some hca with ⟨hmem, hemp, hsw⟩
    have h1 : r.source.startsWith c = true := FsPath.startsWith_of_mem_ancestors hmem
    have hs1 : ( FsPath.strip_prefix r.source c).isSome = true := by
      rw [FsPath.strip_prefix_isSome, h1]
    have hs2 : ( FsPath.strip_prefix r.target c).isSome = true := by
      rw [FsPath.strip_prefix_isSome, hsw]
    rcases Option.isSome_iff_exists.mp hs1 with ⟨s, hs⟩
    rcases Option.isSome_iff_exists.mp hs2 with ⟨t, ht⟩
    refine ⟨s, t, hs, ht, ?_⟩
    simp [Rename.display, hca, hs, ht]

/-- C6 witness: the ungrouped branch on the unrelated relative pair
"a" → "x", and the grouped branch on the root-only absolute pair
"/a/b" → "/x/y". -/
theorem claim_C6_witness :
    Rename.display ⟨pRel ["a"], pRel ["x"]⟩ = some "a => x" ∧
    (∃ s t, FsPath.strip_prefix (pAbs ["a", "b"]) (pAbs []) = some s ∧
       FsPath.strip_prefix (pAbs ["x", "y"]) (pAbs []) = some t ∧
       Rename.display ⟨pAbs ["a", "b"], pAbs ["x", "y"]⟩ =
         some ((pAbs []).render ++ "/\x7b" ++ s.render ++ " => " ++
           t.render ++ "\x7d")) :=
  ⟨(claim_C6_display_grouping ⟨pRel ["a"], pRel ["x"]⟩).1 (by decide),
   (claim_C6_display_grouping ⟨pAbs ["a", "b"], pAbs ["x", "y"]⟩).2
     (pAbs []) (by decide)⟩

/-- C8: `path_exists` returns true exactly when metadata is retrievable at
the path itself — a dangling symlink, whose entry is present while its link
target has none, still counts as existing — returns false when the lookup
reports not-found, and propagates any other I/O failure unchanged. -/
theorem claim_C8_path_exists (fs : ConcreteFs) (p : FsPath) :
    (path_exists fs p = .ok true ↔
       assoc fs.metaErrs p = none ∧ (assoc fs.entries p).isSome = true) ∧
    (∀ e, fs.symlink_metadata p = .error e → e.kind = .notFound →
       path_exists fs p = .ok false) ∧
    (∀ e, fs.symlink_metadata p = .error e → e.kind ≠ .notFound →
       path_exists fs p = .error e) ∧
    (∀ t, assoc fs.entries p = some (Node.symlink t) →
       assoc fs.metaErrs p = none → assoc fs.entries t = none →
       path_exists fs p = .ok true) := by
  refine ⟨?_, ?_, ?_, ?_⟩
  · cases hm : assoc fs.metaErrs p with
    | some e =>
      rw [path_exists_metaErr hm]
      constructor
      · intro h
        by_cases hk : e.kind = .notFound
        · rw [if_pos hk] at h
          exact absurd h (by simp)
        · rw [if_neg hk] at h
          exact absurd h (by simp)
      · rintro ⟨hcon, -⟩
        exact absurd hcon (by simp)
    | none =>
      rw [path_exists_noMetaErr hm]
      cases he : assoc fs.entries p with
      | some n => simp
      | none => simp
  · intro e hse hkind
    unfold path_exists
    rw [hse]
    simp [hkind]
  · intro e hse hkind
    unfold path_exists
    rw [hse]
    exact if_neg hkind
  · intro t hent hm _
    exact path_exists_of_entry (by simp [hent]) hm

/-- C8 witness: in a filesystem holding a dangling symlink at "link", a
metadata-error oracle entry at "bad" and nothing at "nope", `path_exists`
returns true, the propagated error, and false respectively. -/
theorem claim_C8_witness :
    path_exists
        ⟨[(pRel ["link"], Node.symlink (pRel ["gone"])), (pRel ["file"], Node.file 0)],
          [(pRel ["bad"], ⟨.permissionDenied, 7⟩)], [], []⟩ (pRel ["link"]) = .ok true ∧
    path_exists
        ⟨[(pRel ["link"], Node.symlink (pRel ["gone"])), (pRel ["file"], Node.file 0)],
          [(pRel ["bad"], ⟨.permissionDenied, 7⟩)], [], []⟩ (pRel ["bad"]) =
      .error ⟨.permissionDenied, 7⟩ ∧
    path_exists
        ⟨[(pRel ["link"], Node.symlink (pRel ["gone"])), (pRel ["file"], Node.file 0)],
          [(pRel ["bad"], ⟨.permissionDenied, 7⟩)], [], []⟩ (pRel ["nope"]) = .ok false :=
  ⟨(claim_C8_path_exists _ _).2.2.2 (pRel ["gone"]) (by decide) (by decide) (by decide),
   (claim_C8_path_exists _ _).2.2.1 ⟨.permissionDenied, 7⟩ (by decide) (by decide),
   (claim_C8_path_exists _ _).2.1 ⟨.notFound, 0⟩ (by decide) (by decide)⟩

/-- C3: when the target exists — including as a dangling symlink — a single
rename fails with `TargetExists` carrying the pair, leaving the filesystem
state untouched (no directory creation, no rename); when the existence check
itself fails, that error is propagated wrapped with the pair, again with no
mutation. -/
theorem claim_C3_target_exists_guard (r : Rename) (fs : ConcreteFs) :
    (path_exists fs r.target = .ok true →
       r.apply fs = (fs, some (ApplyError.target_exists r.source r.target))) ∧
    (∀ e, path_exists fs r.target = .error e →
       r.apply fs = (fs, some (ApplyError.from_io r.source r.target e))) ∧
    (∀ t, assoc fs.entries r.target = some (Node.symlink t) →
       assoc fs.metaErrs r.target = none →
       r.apply fs = (fs, some (ApplyError.target_exists r.source r.target))) := by
  refine ⟨?_, ?_, ?_⟩
  · intro h
    unfold Rename.apply
    rw [h]
  · intro e h
    unfold Rename.apply
    rw [h]
  · intro t hent hm
    unfold Rename.apply
    rw [path_exists_of_entry (by simp [hent]) hm]

/-- C3 witness: renaming "src" onto an existing file "tgt" fails with
`TargetExists` and leaves the state unchanged; onto a dangling symlink
"link" likewise; and with a metadata-error oracle at "bad" the I/O error is
propagated wrapped with the pair. -/
theorem claim_C3_witness :
    Rename.apply ⟨pRel ["src"], pRel ["tgt"]⟩
        ⟨[(pRel ["src"], Node.file 0), (pRel ["tgt"], Node.file 1)], [], [], []⟩ =
      (⟨[(pRel ["src"], Node.file 0), (pRel ["tgt"], Node.file 1)], [], [], []⟩,
        some (ApplyError.target_exists (pRel ["src"]) (pRel ["tgt"]))) ∧
    Rename.apply ⟨pRel ["src"], pRel ["link"]⟩
        ⟨[(pRel ["src"], Node.file 0), (pRel ["link"], Node.symlink (pRel ["gone"]))],
          [], [], []⟩ =
      (⟨[(pRel ["src"], Node.file 0), (pRel ["link"], Node.symlink (pRel ["gone"]))],
          [], [], []⟩,
        some (ApplyError.target_exists (pRel ["src"]) (pRel ["link"]))) ∧
    Rename.apply ⟨pRel ["src"], pRel ["bad"]⟩
        ⟨[(pRel ["src"], Node.file 0)], [(pRel ["bad"], ⟨.other, 9⟩)], [], []⟩ =
      (⟨[(pRel ["src"], Node.file 0)], [(pRel ["bad"], ⟨.other, 9⟩)], [], []⟩,
        some (ApplyError.from_io (pRel ["src"]) (pRel ["bad"]) ⟨.other, 9⟩)) :=
  ⟨(claim_C3_target_exists_guard ⟨pRel ["src"], pRel ["tgt"]⟩ _).1 (by decide),
   (claim_C3_target_exists_guard ⟨pRel ["src"], pRel ["link"]⟩ _).2.2
     (pRel ["gone"]) (by decide) (by decide),
   (claim_C3_target_exists_guard ⟨pRel ["src"], pRel ["bad"]⟩ _).2.1
     ⟨.other, 9⟩ (by decide)⟩

/-- C9: when the target does not exist and its parent directory is missing,
`apply` first creates the parent and every missing ancestor — a directory
creation failure is returned wrapped as an I/O apply error with the pair —
and only then performs the rename from the augmented state, whose failure is
likewise wrapped, and whose success is the operation's success. -/
theorem claim_C9_creates_parents (r : Rename) (fs : ConcreteFs) (tp : FsPath)
    (hpe : path_exists fs r.target = .ok false)
    (hparent : r.target.parent = some tp)
    (hmiss : fs.existsFollow tp = false) :
    (∀ e, assoc fs.mkdirErrs tp = some e →
       r.apply fs = (fs, some (ApplyError.from_io r.source r.target e))) ∧
    (assoc fs.mkdirErrs tp = none →
       ∃ fs1, fs.create_dir_all tp = (fs1, none) ∧
         (∀ a ∈ tp.ancestors, a.isEmptyOsStr = false →
            (assoc fs1.entries a).isSome = true) ∧
         (∀ fs2 e, fs1.rename r.source r.target = (fs2, some e) →
            r.apply fs = (fs2, some (ApplyError.from_io r.source r.target e))) ∧
         (∀ fs2, fs1.rename r.source r.target = (fs2, none) →
            r.apply fs = (fs2, none))) := by
  constructor
  · intro e he
    exact apply_mkdirFail hpe hparent hmiss he
  · intro hok
    refine ⟨(fs.create_dir_all tp).1, ?_, ConcreteFs.create_dir_all_entries hok, ?_, ?_⟩
    · unfold ConcreteFs.create_dir_all
      rw [hok]
    · intro fs2 e hren
      rw [apply_renameStep hpe hparent hmiss hok, hren]
    · intro fs2 hren
      rw [apply_renameStep hpe hparent hmiss hok, hren]

/-- C9 witness: renaming "a" to "d/e/f" in a filesystem holding only "a"
creates the missing directories "d" and "d/e" and then moves the file; with
a directory-creation failure injected at "d/e" the error comes back wrapped
with the pair. -/
theorem claim_C9_witness :
    (∃ fs1,
       ConcreteFs.create_dir_all ⟨[(pRel ["a"], Node.file 0)], [], [], []⟩
           (pRel ["d", "e"]) = (fs1, none) ∧
       (∀ a ∈ (pRel ["d", "e"]).ancestors, a.isEmptyOsStr = false →
          (assoc fs1.entries a).isSome = true) ∧
       (∀ fs2 e, fs1.rename (pRel ["a"]) (pRel ["d", "e", "f"]) = (fs2, some e) →
          Rename.apply ⟨pRel ["a"], pRel ["d", "e", "f"]⟩
              ⟨[(pRel ["a"], Node.file 0)], [], [], []⟩ =
            (fs2, some (ApplyError.from_io (pRel ["a"]) (pRel ["d", "e", "f"]) e))) ∧
       (∀ fs2, fs1.rename (pRel ["a"]) (pRel ["d", "e", "f"]) = (fs2, none) →
          Rename.apply ⟨pRel ["a"], pRel ["d", "e", "f"]⟩
              ⟨[(pRel ["a"], Node.file 0)], [], [], []⟩ = (fs2, none))) ∧
    Rename.apply ⟨pRel ["a"], pRel ["d", "e", "f"]⟩
        ⟨[(pRel ["a"], Node.file 0)], [], [(pRel ["d", "e"], ⟨.other, 3⟩)], []⟩ =
      (⟨[(pRel ["a"], Node.file 0)], [], [(pRel ["d", "e"], ⟨.other, 3⟩)], []⟩,
        some (ApplyError.from_io (pRel ["a"]) (pRel ["d", "e", "f"]) ⟨.other, 3⟩)) :=
  ⟨(claim_C9_creates_parents ⟨pRel ["a"], pRel ["d", "e", "f"]⟩
      ⟨[(pRel ["a"], Node.file 0)], [], [], []⟩ (pRel ["d", "e"])
      (by decide) (by decide) (by decide)).2 (by decide),
   (claim_C9_creates_parents ⟨pRel ["a"], pRel ["d", "e", "f"]⟩
      ⟨[(pRel ["a"], Node.file 0)], [], [(pRel ["d", "e"], ⟨.other, 3⟩)], []⟩
      (pRel ["d", "e"])
      (by decide) (by decide) (by decide)).1 ⟨.other, 3⟩ (by decide)⟩

/-- C2: `apply` executes the plan's operations sequentially in stored order:
it succeeds exactly when a full run succeeds, ending in that run's final
state; on failure the returned error is the first failing operation's error,
every operation before it ran successfully, and the returned state is the
failing step's state — the earlier operations remain applied, with no
rollback. -/
theorem claim_C2_apply_fail_fast (plan : Plan) (fs fs2 : ConcreteFs) :
    (plan.apply fs = (fs2, none) ↔ AllSucceed fs plan.renames fs2) ∧
    (∀ e, plan.apply fs = (fs2, some e) →
       ∃ l1 r l2 fsm, plan.renames = l1 ++ r :: l2 ∧ AllSucceed fs l1 fsm ∧
         r.apply fsm = (fs2, some e)) :=
  ⟨applyList_none_iff, fun _ h => applyList_some h⟩

/-- C2 witness: a two-operation plan whose second operation hits an existing
target fails with that operation's `TargetExists` error while the first
rename remains applied in the returned state. -/
theorem claim_C2_witness :
    ∃ l1 r l2 fsm,
      (Plan.mk [⟨pRel ["a"], pRel ["b"]⟩, ⟨pRel ["x"], pRel ["c"]⟩]).renames =
        l1 ++ r :: l2 ∧
      AllSucceed ⟨[(pRel ["a"], Node.file 0), (pRel ["c"], Node.file 1)], [], [], []⟩
        l1 fsm ∧
      r.apply fsm =
        (⟨[(pRel ["b"], Node.file 0), (pRel ["c"], Node.file 1)], [], [], []⟩,
          some (ApplyError.target_exists (pRel ["x"]) (pRel ["c"]))) :=
  (claim_C2_apply_fail_fast
      (Plan.mk [⟨pRel ["a"], pRel ["b"]⟩, ⟨pRel ["x"], pRel ["c"]⟩])
      ⟨[(pRel ["a"], Node.file 0), (pRel ["c"], Node.file 1)], [], [], []⟩
      ⟨[(pRel ["b"], Node.file 0), (pRel ["c"], Node.file 1)], [], [], []⟩).2
    (ApplyError.target_exists (pRel ["x"]) (pRel ["c"])) (by decide)

end Nominal
